import Mathlib

/-!
# bases: a stream transcoder between hex, base58 and raw bytes

A shallow embedding of `main.go`: the hex and Base58 adapters (`hexReader`,
`hexWriter`, `b58Reader`, `b58Writer`) and the format switches of `main`,
together with the library routines they call (`encoding/hex`, `bytes.TrimSpace`,
`bytes.Replace`, `go-base58`).

Bytes and text characters are natural numbers below 256; a Go `[]byte` or
`string` is a `List Nat`.  A run-time panic of the Go program (a slice bound or
an index out of range) is the result `none`.
-/

namespace Bases

/-! ## Bytes, errors and the underlying streams -/

/-- Every element of the list is a byte value. -/
def IsBytes (B : List Nat) : Prop := ∀ x ∈ B, x < 256

instance (B : List Nat) : Decidable (IsBytes B) := by
  unfold IsBytes; infer_instance

/-- The bytes of an ASCII string literal, as in the Go conversion `[]byte(s)`. -/
def ascii (s : String) : List Nat := s.toList.map Char.toNat

/-- Error values that the adapters return or pass on. -/
inductive Error where
  /-- The error `hex.ErrLength`: odd length hex string. -/
  | ErrLength
  /-- The error `hex.InvalidByteError(c)`. -/
  | InvalidByteError (c : Nat)
  /-- An error made by `fmt.Errorf(msg)`. -/
  | Errorf (msg : String)
  /-- The sentinel `io.EOF`. -/
  | EOF
  /-- Any other error of an underlying reader or writer. -/
  | other (code : Nat)
  deriving DecidableEq, Repr

/-- What one call `src.Read(buf)` of an underlying `io.Reader` answers: the
bytes it stored in `buf[:n]` (so `n = data.length`) and its error. -/
structure SrcReply where
  data : List Nat
  err : Option Error
  deriving DecidableEq, Repr

/-- An underlying `io.Reader`, seen through one call of `Read`: the answer as a
function of `len(buf)`. -/
abbrev Reader := Nat → SrcReply

/-- A source that has exactly the text `t` pending and hands over as much of it
as fits the buffer, with a nil error. -/
def pending (t : List Nat) : Reader := fun cap => ⟨t.take cap, none⟩

/-- Standard input (`os.Stdin`) with exactly the text `t` left to read: one
read takes as much of `t` as fits the buffer, with a nil error; at the end of
the input, that is for an empty `t`, the read answers no byte and `io.EOF`. -/
def stdin (t : List Nat) : Reader :=
  fun cap => if t = [] then ⟨[], some Error.EOF⟩ else ⟨t.take cap, none⟩

/-- The error that `io.Copy` returns when a read of its source answers the
error `er`: the loop stops, and `io.EOF` is the regular end of the transfer,
reported as a nil error, while any other error is returned. -/
def copyErr (er : Option Error) : Option Error :=
  match er with
  | some Error.EOF => none
  | e => e

/-- The `(n, err)` answer of a `Read` together with the destination buffer `b`
as the call leaves it. -/
structure ReadResult where
  n : Nat
  err : Option Error
  b : List Nat
  deriving DecidableEq, Repr

/-- An underlying `io.Writer`: the chunks handed to its `Write` so far, and its
`(n, err)` answer to a call as a function of that history and of the chunk. -/
structure Writer where
  calls : List (List Nat)
  reply : List (List Nat) → List Nat → Nat × Option Error

/-- One call `w.Write(p)` of the underlying writer: `p` joins the history. -/
def Writer.Write (w : Writer) (p : List Nat) : Writer × (Nat × Option Error) :=
  (⟨w.calls ++ [p], w.reply⟩, w.reply w.calls p)

/-- All the bytes handed to the underlying writer, in order. -/
def Writer.emitted (w : Writer) : List Nat := w.calls.flatten

/-- The builtin `copy(dst, src)`: the first `min(len(dst), len(src))` bytes
of `src` overwrite the start of `dst`; the count is returned with the new
`dst`. -/
def copy (dst src : List Nat) : Nat × List Nat :=
  (min dst.length src.length, src.take dst.length ++ dst.drop src.length)

/-! ## encoding/hex -/

/-- The constant `hextable` of `encoding/hex`. -/
def hex.hextable : List Nat := ascii "0123456789abcdef"

/-- The function `hex.EncodeToString`: for each byte `v` the characters
`hextable[v>>4]` and `hextable[v&0x0f]`. -/
def hex.EncodeToString : List Nat → List Nat
  | [] => []
  | v :: rest =>
    hex.hextable.getD (v >>> 4) 0 :: hex.hextable.getD (v &&& 0x0f) 0 ::
      hex.EncodeToString rest

/-- The table `reverseHexTable` of `encoding/hex`: the value of a hex digit,
`0xff` for every other byte. -/
def hex.reverseHexTable (c : Nat) : Nat :=
  if 48 ≤ c ∧ c ≤ 57 then c - 48
  else if 97 ≤ c ∧ c ≤ 102 then c - 97 + 10
  else if 65 ≤ c ∧ c ≤ 70 then c - 65 + 10
  else 0xff

/-- The loop of `hex.Decode(dst, src)` with `i` bytes already stored: pairs of
characters `p`, `q` are looked up; an invalid character ends the loop with
`InvalidByteError`, a lone last character with `ErrLength` (after the check
that it is a digit); `dst[i] = (a << 4) | b` panics past the end of `dst`. -/
def hex.decodeFrom : List Nat → List Nat → Nat → Option ReadResult
  | [], dst, i => some ⟨i, none, dst⟩
  | [p], dst, i =>
    if hex.reverseHexTable p > 0x0f then some ⟨i, some (Error.InvalidByteError p), dst⟩
    else some ⟨i, some Error.ErrLength, dst⟩
  | p :: q :: rest, dst, i =>
    let a := hex.reverseHexTable p
    let b := hex.reverseHexTable q
    if a > 0x0f then some ⟨i, some (Error.InvalidByteError p), dst⟩
    else if b > 0x0f then some ⟨i, some (Error.InvalidByteError q), dst⟩
    else if i < dst.length then hex.decodeFrom rest (dst.set i ((a <<< 4) ||| b)) (i + 1)
    else none

/-- The function `hex.Decode(dst, src)`, as in Go 1.10 and later: on an error
the count of the bytes decoded before it is returned. -/
def hex.Decode (dst src : List Nat) : Option ReadResult := hex.decodeFrom src dst 0

/-! ## unicode/utf8 and unicode -/

/-- The constant `utf8.RuneError`. -/
def utf8.RuneError : Nat := 0xFFFD

/-- The function `utf8.RuneStart`: not a continuation byte. -/
def utf8.RuneStart (c : Nat) : Bool := c &&& 0xC0 != 0x80

/-- The function `utf8.DecodeRune`: the first rune of `p` and its width in
bytes; an invalid or short encoding gives `(RuneError, 1)`. -/
def utf8.DecodeRune (p : List Nat) : Nat × Nat :=
  match p with
  | [] => (utf8.RuneError, 0)
  | p0 :: t =>
    if p0 < 0x80 then (p0, 1)
    else if p0 < 0xC2 ∨ 0xF4 < p0 then (utf8.RuneError, 1)
    else
      let sz := if p0 < 0xE0 then 2 else if p0 < 0xF0 then 3 else 4
      let lo := if p0 = 0xE0 then 0xA0 else if p0 = 0xF0 then 0x90 else 0x80
      let hi := if p0 = 0xED then 0x9F else if p0 = 0xF4 then 0x8F else 0xBF
      if p.length < sz then (utf8.RuneError, 1)
      else
        let b1 := t.getD 0 0
        let b2 := t.getD 1 0
        let b3 := t.getD 2 0
        if b1 < lo ∨ hi < b1 then (utf8.RuneError, 1)
        else if sz ≤ 2 then (((p0 &&& 0x1F) <<< 6) ||| (b1 &&& 0x3F), 2)
        else if b2 < 0x80 ∨ 0xBF < b2 then (utf8.RuneError, 1)
        else if sz ≤ 3 then
          (((p0 &&& 0x0F) <<< 12) ||| ((b1 &&& 0x3F) <<< 6) ||| (b2 &&& 0x3F), 3)
        else if b3 < 0x80 ∨ 0xBF < b3 then (utf8.RuneError, 1)
        else
          (((p0 &&& 0x07) <<< 18) ||| ((b1 &&& 0x3F) <<< 12) ||| ((b2 &&& 0x3F) <<< 6)
            ||| (b3 &&& 0x3F), 4)

/-- The backward scan of `utf8.DecodeLastRune`: from `start` down to `lim`,
stopping at the first byte that starts a rune. -/
def utf8.scanBack (p : List Nat) (lim : Int) : Nat → Int → Int
  | 0, start => start
  | fuel + 1, start =>
    if start < lim then start
    else if utf8.RuneStart (p.getD start.toNat 0) then start
    else utf8.scanBack p lim fuel (start - 1)

/-- The function `utf8.DecodeLastRune`: the last rune of `p` and its width. -/
def utf8.DecodeLastRune (p : List Nat) : Nat × Nat :=
  if p.length = 0 then (utf8.RuneError, 0)
  else
    let r := p.getD (p.length - 1) 0
    if r < 0x80 then (r, 1)
    else
      let lim : Int := max ((p.length : Int) - 4) 0
      let start := utf8.scanBack p lim 4 ((p.length : Int) - 2)
      let start := if start < 0 then 0 else start.toNat
      let rs := utf8.DecodeRune (p.drop start)
      if start + rs.2 ≠ p.length then (utf8.RuneError, 1) else rs

/-- The function `unicode.IsSpace`. -/
def unicode.IsSpace (r : Nat) : Bool :=
  if r ≤ 0xFF then
    r = 9 ∨ r = 10 ∨ r = 11 ∨ r = 12 ∨ r = 13 ∨ r = 32 ∨ r = 0x85 ∨ r = 0xA0
  else
    r = 0x1680 ∨ (0x2000 ≤ r ∧ r ≤ 0x200a) ∨ r = 0x2028 ∨ r = 0x2029 ∨ r = 0x202f
      ∨ r = 0x205f ∨ r = 0x3000

/-! ## bytes -/

/-- The table `asciiSpace` of package `bytes`: tab, newline, vertical tab,
form feed, carriage return and space. -/
def bytes.asciiSpace (c : Nat) : Bool :=
  c = 9 ∨ c = 10 ∨ c = 11 ∨ c = 12 ∨ c = 13 ∨ c = 32

/-- The loop of `bytes.TrimLeftFunc`: runes are dropped from the front while
`f` holds for them.  Every round drops at least one byte, so `len(s)` rounds
are enough. -/
def bytes.trimLeftLoop (f : Nat → Bool) : Nat → List Nat → List Nat
  | 0, _ => []
  | _ + 1, [] => []
  | fuel + 1, c :: rest =>
    let rw := if c ≥ 0x80 then utf8.DecodeRune (c :: rest) else (c, 1)
    if f rw.1 = false then c :: rest
    else bytes.trimLeftLoop f fuel ((c :: rest).drop rw.2)

/-- The function `bytes.TrimLeftFunc`. -/
def bytes.TrimLeftFunc (s : List Nat) (f : Nat → Bool) : List Nat :=
  bytes.trimLeftLoop f s.length s

/-- The function `bytes.lastIndexFunc(s, f, false)` on the part `s[0:i]` still
to inspect: the index of the last rune for which `f` fails, if any.  Every
round drops at least one byte, so `len(s)` rounds are enough. -/
def bytes.lastIndexLoop (f : Nat → Bool) : Nat → List Nat → Option Nat
  | 0, _ => none
  | fuel + 1, pre =>
    if pre.length = 0 then none
    else
      let c := pre.getD (pre.length - 1) 0
      let rs := if c ≥ 0x80 then utf8.DecodeLastRune pre else (c, 1)
      let i := pre.length - rs.2
      if f rs.1 = false then some i
      else bytes.lastIndexLoop f fuel (pre.take i)

/-- The function `bytes.TrimRightFunc`. -/
def bytes.TrimRightFunc (s : List Nat) (f : Nat → Bool) : List Nat :=
  match bytes.lastIndexLoop f s.length s with
  | some i =>
    if s.getD i 0 ≥ 0x80 then s.take (i + (utf8.DecodeRune (s.drop i)).2)
    else s.take (i + 1)
  | none => []

/-- The function `bytes.TrimFunc`. -/
def bytes.TrimFunc (s : List Nat) (f : Nat → Bool) : List Nat :=
  bytes.TrimRightFunc (bytes.TrimLeftFunc s f) f

/-- The second loop of `bytes.TrimSpace`, on `s[start:stop]` reversed: ASCII
spaces are dropped from the end; a byte of a multi-byte rune hands the rest to
`TrimFunc`. -/
def bytes.trimSpaceEnd : List Nat → List Nat
  | [] => []
  | c :: rest =>
    if c ≥ 0x80 then bytes.TrimFunc (c :: rest).reverse unicode.IsSpace
    else if bytes.asciiSpace c then bytes.trimSpaceEnd rest
    else (c :: rest).reverse

/-- The function `bytes.TrimSpace`: leading and trailing white space removed.
The first loop drops ASCII spaces from the front; a byte of a multi-byte rune
hands the rest to `TrimFunc`. -/
def bytes.TrimSpace : List Nat → List Nat
  | [] => []
  | c :: rest =>
    if c ≥ 0x80 then bytes.TrimFunc (c :: rest) unicode.IsSpace
    else if bytes.asciiSpace c then bytes.TrimSpace rest
    else bytes.trimSpaceEnd (c :: rest).reverse

/-- The function `bytes.Replace(s, []byte{old}, new, -1)` for a one-byte
pattern: every occurrence of `old` is replaced by `new`. -/
def bytes.Replace (s : List Nat) (old : Nat) (new : List Nat) : List Nat :=
  match s with
  | [] => []
  | c :: rest =>
    if c = old then new ++ bytes.Replace rest old new
    else c :: bytes.Replace rest old new

/-! ## The hex adapters of main.go -/

/-- The type `hexReader`. -/
structure hexReader where
  src : Reader

/-- The method `hexReader.Read` (main.go, lines 22-36). -/
def hexReader.Read (r : hexReader) (b : List Nat) : Option ReadResult :=
  let reply := r.src (b.length * 2)
  match reply.err with
  | some err => some ⟨0, some err, b⟩
  | none =>
    if reply.data.length > b.length * 2 then none
    else
      let buf := reply.data
      let buf := if buf.length > 2 ∧ buf.take 2 = ascii "0x" then buf.drop 2 else buf
      let out1 := bytes.TrimSpace buf
      let out2 := bytes.Replace out1 32 []
      hex.Decode b out2

/-- The type `hexWriter`. -/
structure hexWriter where
  dst : Writer

/-- The method `hexWriter.Write` (main.go, lines 42-48): the answer of
`w.dst.Write` is discarded. -/
def hexWriter.Write (w : hexWriter) (b : List Nat) : hexWriter × (Nat × Option Error) :=
  if b.length = 0 then (w, (0, none))
  else (⟨(w.dst.Write (hex.EncodeToString b)).1⟩, (b.length, none))

/-- The method `hexWriter.Close` (main.go, lines 50-52). -/
def hexWriter.Close (w : hexWriter) : hexWriter × Option Error := (w, none)

/-- A sequence of `Write` calls on a `hexWriter`, one per chunk, with the
answers of the calls. -/
def hexWriter.WriteAll (w : hexWriter) :
    List (List Nat) → hexWriter × List (Nat × Option Error)
  | [] => (w, [])
  | b :: rest =>
    let r := w.Write b
    let rs := hexWriter.WriteAll r.1 rest
    (rs.1, r.2 :: rs.2)

/-! ## math/big and go-base58 -/

/-- The method `big.Int.SetBytes`: the big-endian value of the bytes. -/
def big.SetBytes (b : List Nat) : Nat := b.foldl (fun x v => x * 256 + v) 0

/-- The bytes of `x` from the least significant one, none for zero; `x` rounds
are enough, since every round divides by 256. -/
def big.bytesLE : Nat → Nat → List Nat
  | 0, _ => []
  | fuel + 1, x => if x = 0 then [] else x % 256 :: big.bytesLE fuel (x / 256)

/-- The method `big.Int.Bytes`: the big-endian bytes of `x` without leading
zeros (no byte at all for zero). -/
def big.Bytes (x : Nat) : List Nat := (big.bytesLE x x).reverse

/-- The constant `BTCAlphabet` of `go-base58`. -/
def base58.BTCAlphabet : List Nat :=
  ascii "123456789ABCDEFGHJKLMNPQRSTUVWXYZabcdefghijkmnopqrstuvwxyz"

/-- The call `strings.IndexAny(alphabet, string(c))` for a byte `c`: the index
of `c` in the alphabet, `none` for the answer -1. -/
def base58.index (alphabet : List Nat) (c : Nat) : Option Nat :=
  if c ∈ alphabet then some (alphabet.indexOf c) else none

/-- The first loop of `DecodeAlphabet`, over the characters from the last to
the first: `answer` gains `j * idx`, `j` is multiplied by 58; a character
outside the alphabet ends the decoding. -/
def base58.decodeLoop (alphabet : List Nat) : List Nat → Nat → Nat → Option Nat
  | [], answer, _ => some answer
  | c :: rest, answer, j =>
    match base58.index alphabet c with
    | none => none
    | some idx => base58.decodeLoop alphabet rest (answer + j * idx) (j * 58)

/-- The second loop of `DecodeAlphabet`: the number of leading characters equal
to `alphabet[0]`. -/
def base58.numZeros (alphabet : List Nat) : List Nat → Nat
  | [] => 0
  | c :: rest => if c ≠ alphabet.getD 0 0 then 0 else base58.numZeros alphabet rest + 1

/-- The function `base58.DecodeAlphabet`: the empty slice when a character is
outside the alphabet, else `numZeros` zero bytes followed by the big-endian
bytes of the decoded number. -/
def base58.DecodeAlphabet (b alphabet : List Nat) : List Nat :=
  match base58.decodeLoop alphabet b.reverse 0 1 with
  | none => []
  | some answer =>
    let tmpval := big.Bytes answer
    List.replicate (base58.numZeros alphabet b) 0 ++ tmpval

/-- The function `base58.Decode`. -/
def base58.Decode (b : List Nat) : List Nat := base58.DecodeAlphabet b base58.BTCAlphabet

/-- The first loop of `EncodeAlphabet`: while `x > 0`, `x` is divided by 58
and the character of the remainder is appended; `x` rounds are enough. -/
def base58.encodeLoop (alphabet : List Nat) : Nat → Nat → List Nat
  | 0, _ => []
  | fuel + 1, x =>
    if x > 0 then alphabet.getD (x % 58) 0 :: base58.encodeLoop alphabet fuel (x / 58)
    else []

/-- The second loop of `EncodeAlphabet`: one `alphabet[0]` for each leading
zero byte. -/
def base58.leadingZeros (alphabet : List Nat) : List Nat → List Nat
  | [] => []
  | i :: rest => if i ≠ 0 then [] else alphabet.getD 0 0 :: base58.leadingZeros alphabet rest

/-- The function `base58.EncodeAlphabet`: the digits of the number from the
least significant one, then the characters of the leading zero bytes, and the
whole reversed. -/
def base58.EncodeAlphabet (b alphabet : List Nat) : List Nat :=
  let x := big.SetBytes b
  let answer := base58.encodeLoop alphabet x x
  let answer := answer ++ base58.leadingZeros alphabet b
  answer.reverse

/-- The function `base58.Encode`. -/
def base58.Encode (b : List Nat) : List Nat := base58.EncodeAlphabet b base58.BTCAlphabet

/-! ## The Base58 adapters of main.go -/

/-- The type `b58Reader`. -/
structure b58Reader where
  src : Reader

/-- The method `b58Reader.Read` (main.go, lines 58-72). -/
def b58Reader.Read (r : b58Reader) (b : List Nat) : Option ReadResult :=
  let reply := r.src (b.length * 2)
  match reply.err with
  | some err => some ⟨0, some err, b⟩
  | none =>
    if reply.data.length > b.length * 2 then none
    else
      let buf := reply.data
      let out := base58.Decode buf
      if out.length = 0 then some ⟨0, some (Error.Errorf "invalid base58 input"), b⟩
      else
        let c := copy b out
        some ⟨c.1, none, c.2⟩

/-- The type `b58Writer`. -/
structure b58Writer where
  w : Writer

/-- The method `b58Writer.Close` (main.go, line 78). -/
def b58Writer.Close (w : b58Writer) : b58Writer × Option Error := (w, none)

/-- The method `b58Writer.Write` (main.go, lines 79-87). -/
def b58Writer.Write (w : b58Writer) (b : List Nat) : b58Writer × (Nat × Option Error) :=
  let encoded := base58.Encode b
  let r := w.w.Write encoded
  match r.2.2 with
  | some err => (⟨r.1⟩, (0, some err))
  | none => (⟨r.1⟩, (b.length, none))

/-- A sequence of `Write` calls on a `b58Writer`, one per chunk, with the
answers of the calls. -/
def b58Writer.WriteAll (w : b58Writer) :
    List (List Nat) → b58Writer × List (Nat × Option Error)
  | [] => (w, [])
  | b :: rest =>
    let r := w.Write b
    let rs := b58Writer.WriteAll r.1 rest
    (rs.1, r.2 :: rs.2)

/-! ## The format switches of main -/

/-- The reader strategies that the switch on `os.Args[1]` can select. -/
inductive Source where
  | b64 | hex | b32 | b58 | raw | mbase
  deriving DecidableEq, Repr

/-- The writer strategies that the switch on `os.Args[2]` can select. -/
inductive Target where
  | b64 | hex | b32 | b58 | raw
  deriving DecidableEq, Repr

/-- The case that the switch on `os.Args[1]` takes (main.go, lines 96-122);
`none` is the default case. -/
def sourceCase (arg : String) : Option Source :=
  match arg with
  | "b64" | "base64" => some Source.b64
  | "hex" | "b16" => some Source.hex
  | "b32" | "base32" => some Source.b32
  | "b58" | "base58" => some Source.b58
  | "raw" | "bin" => some Source.raw
  | "mbase" => some Source.mbase
  | _ => none

/-- The case that the switch on `os.Args[2]` takes (main.go, lines 125-139);
`none` is the default case. -/
def targetCase (arg : String) : Option Target :=
  match arg with
  | "b64" | "base64" => some Target.b64
  | "hex" | "b16" => some Target.hex
  | "b32" | "base32" => some Target.b32
  | "b58" | "base58" => some Target.b58
  | "raw" | "bin" => some Target.raw
  | _ => none

/-- How a run ends: the exit status, the bytes written to standard output and
the lines written to standard error. -/
structure Run where
  status : Nat
  stdout : List Nat
  stderr : List String
  deriving DecidableEq, Repr

/-- What `main` takes from outside the two switches: in the `mbase` case the
message of a failed `ioutil.ReadAll` or `mbase.Decode` (`none` when both
succeed), and the end of the run through `io.Copy` (main.go, lines 141-146) for
the selected strategies. -/
structure Env where
  mbaseFailure : Option String
  transfer : Source → Target → Run

/-- The function `main` (main.go, lines 89-147) on the argument vector
`os.Args`. -/
def main (Args : List String) (env : Env) : Run :=
  if Args.length < 3 then
    ⟨1, [], ["must pass two arguments, source encoding and target encoding"]⟩
  else
    match sourceCase (Args.getD 1 "") with
    | none => ⟨1, [], ["unrecognized input encoding"]⟩
    | some r =>
      match (if r = Source.mbase then env.mbaseFailure else none) with
      | some msg => ⟨1, [], [msg]⟩
      | none =>
        match targetCase (Args.getD 2 "") with
        | none => ⟨1, [], ["unrecognized output encoding"]⟩
        | some w => env.transfer r w

/-! ## Specification-side notions -/

/-- The characters that are hex digits, of either case. -/
def isHexDigit (c : Nat) : Bool := c ∈ ascii "0123456789abcdefABCDEF"

/-- The number that a hex digit character stands for. -/
def digitValue (c : Nat) : Nat :=
  if c ∈ ascii "0123456789" then (ascii "0123456789").indexOf c
  else if c ∈ ascii "abcdef" then 10 + (ascii "abcdef").indexOf c
  else 10 + (ascii "ABCDEF").indexOf c

/-- The bytes that a string of hex digits denotes: one byte for each pair of
digits, the first digit of a pair being the high half. -/
def bytesOfDigits : List Nat → List Nat
  | p :: q :: rest => (16 * digitValue p + digitValue q) :: bytesOfDigits rest
  | _ => []

/-- The lowercase hex representation of a byte sequence: two digits for each
byte, the high half first. -/
def lowerHex (B : List Nat) : List Nat :=
  B.flatMap (fun v => [(Nat.digitChar (v / 16)).toNat, (Nat.digitChar (v % 16)).toNat])

end Bases

namespace Bases

/-! ## Facts about the hex tables -/

theorem hextable_getD_eq (d : Nat) (h : d < 16) :
    hex.hextable.getD d 0 = (Nat.digitChar d).toNat := by
  interval_cases d <;> decide

theorem reverseHexTable_hextable (d : Nat) (h : d < 16) :
    hex.reverseHexTable (hex.hextable.getD d 0) = d := by
  interval_cases d <;> decide

theorem isHexDigit_hextable (d : Nat) (h : d < 16) :
    isHexDigit (hex.hextable.getD d 0) = true := by
  interval_cases d <;> decide

theorem isHexDigit_cases (c : Nat) (h : isHexDigit c = true) :
    c = 48 ∨ c = 49 ∨ c = 50 ∨ c = 51 ∨ c = 52 ∨ c = 53 ∨ c = 54 ∨ c = 55 ∨ c = 56 ∨ c = 57
      ∨ c = 97 ∨ c = 98 ∨ c = 99 ∨ c = 100 ∨ c = 101 ∨ c = 102
      ∨ c = 65 ∨ c = 66 ∨ c = 67 ∨ c = 68 ∨ c = 69 ∨ c = 70 := by
  have h2 : c ∈ ascii "0123456789abcdefABCDEF" := by simpa [isHexDigit] using h
  have h3 : ascii "0123456789abcdefABCDEF" =
      [48, 49, 50, 51, 52, 53, 54, 55, 56, 57, 97, 98, 99, 100, 101, 102,
        65, 66, 67, 68, 69, 70] := by decide
  rw [h3] at h2
  simpa using h2

theorem reverseHexTable_digit (c : Nat) (h : isHexDigit c = true) :
    hex.reverseHexTable c = digitValue c ∧ digitValue c < 16 := by
  rcases isHexDigit_cases c h with h | h | h | h | h | h | h | h | h | h | h | h | h | h | h | h
    | h | h | h | h | h | h <;> subst h <;> decide

theorem isHexDigit_props (c : Nat) (h : isHexDigit c = true) :
    c < 128 ∧ bytes.asciiSpace c = false ∧ c ≠ 120 ∧ c ≠ 32 := by
  rcases isHexDigit_cases c h with h | h | h | h | h | h | h | h | h | h | h | h | h | h | h | h
    | h | h | h | h | h | h <;> subst h <;> decide

theorem shl_lor_eq (a b : Nat) (ha : a < 16) (hb : b < 16) : (a <<< 4) ||| b = 16 * a + b := by
  interval_cases a <;> interval_cases b <;> rfl

theorem shr4_eq (v : Nat) : v >>> 4 = v / 16 := by
  rw [Nat.shiftRight_eq_div_pow]

theorem and15_eq (v : Nat) : v &&& 0x0f = v % 16 := by
  exact Nat.and_pow_two_sub_one_eq_mod v 4

/-! ## Facts about hex encoding and decoding -/

theorem EncodeToString_eq_lowerHex (B : List Nat) (hB : IsBytes B) :
    hex.EncodeToString B = lowerHex B := by
  induction B with
  | nil => rfl
  | cons v rest ih =>
    have hv : v < 256 := hB v (List.mem_cons_self _ _)
    have hrest : IsBytes rest := fun x hx => hB x (List.mem_cons_of_mem _ hx)
    have h1 : v / 16 < 16 := by omega
    have h2 : v % 16 < 16 := by omega
    simp only [hex.EncodeToString, shr4_eq, and15_eq, ih hrest, hextable_getD_eq _ h1,
      hextable_getD_eq _ h2, lowerHex, List.flatMap_cons, List.cons_append, List.nil_append]

theorem EncodeToString_length (B : List Nat) : (hex.EncodeToString B).length = 2 * B.length := by
  induction B with
  | nil => rfl
  | cons v rest ih => simp only [hex.EncodeToString, List.length_cons, ih]; omega

theorem EncodeToString_digits (B : List Nat) (hB : IsBytes B) :
    ∀ c ∈ hex.EncodeToString B, isHexDigit c = true := by
  induction B with
  | nil => intro c hc; cases hc
  | cons v rest ih =>
    have hv : v < 256 := hB v (List.mem_cons_self _ _)
    have hrest : IsBytes rest := fun x hx => hB x (List.mem_cons_of_mem _ hx)
    intro c hc
    simp only [hex.EncodeToString, shr4_eq, and15_eq, List.mem_cons] at hc
    rcases hc with rfl | rfl | hc
    · exact isHexDigit_hextable _ (by omega)
    · exact isHexDigit_hextable _ (by omega)
    · exact ih hrest c hc

theorem bytesOfDigits_EncodeToString (B : List Nat) (hB : IsBytes B) :
    bytesOfDigits (hex.EncodeToString B) = B := by
  induction B with
  | nil => rfl
  | cons v rest ih =>
    have hv : v < 256 := hB v (List.mem_cons_self _ _)
    have hrest : IsBytes rest := fun x hx => hB x (List.mem_cons_of_mem _ hx)
    have h1 : v / 16 < 16 := by omega
    have h2 : v % 16 < 16 := by omega
    have e1 := (reverseHexTable_digit _ (isHexDigit_hextable _ h1)).1
    have e2 := (reverseHexTable_digit _ (isHexDigit_hextable _ h2)).1
    rw [reverseHexTable_hextable _ h1] at e1
    rw [reverseHexTable_hextable _ h2] at e2
    simp only [hex.EncodeToString, shr4_eq, and15_eq, bytesOfDigits, ih hrest, ← e1, ← e2]
    congr 1
    omega

theorem bytesOfDigits_length : ∀ s : List Nat, (bytesOfDigits s).length = s.length / 2
  | [] => rfl
  | [_] => by simp [bytesOfDigits]
  | _ :: _ :: rest => by
    simp only [bytesOfDigits, List.length_cons, bytesOfDigits_length rest]; omega

theorem set_append_cons (pre : List Nat) (x v : Nat) (post : List Nat) :
    (pre ++ x :: post).set pre.length v = pre ++ v :: post := by
  induction pre with
  | nil => rfl
  | cons a pre ih => simp only [List.cons_append, List.length_cons, List.set_cons_succ, ih]

theorem decodeFrom_digits : ∀ (s pre post : List Nat), (∀ c ∈ s, isHexDigit c = true) →
    s.length % 2 = 0 → s.length / 2 ≤ post.length →
    hex.decodeFrom s (pre ++ post) pre.length =
      some ⟨pre.length + s.length / 2, none, pre ++ bytesOfDigits s ++ post.drop (s.length / 2)⟩
  | [], pre, post, _, _, _ => by
    simp [hex.decodeFrom, bytesOfDigits]
  | [p], _, _, _, hp, _ => by
    simp at hp
  | p :: q :: rest, pre, post, hd, hp, hl => by
    have hdp := reverseHexTable_digit p (hd p (by simp))
    have hdq := reverseHexTable_digit q (hd q (by simp))
    have hrest : ∀ c ∈ rest, isHexDigit c = true := fun c hc => hd c (by simp [hc])
    have hlen : (p :: q :: rest).length / 2 = rest.length / 2 + 1 := by
      simp only [List.length_cons]; omega
    rw [hlen] at hl
    match post, hl with
    | x :: post, hl =>
      have hl2 : rest.length / 2 ≤ post.length := by simpa using hl
      have hp2 : rest.length % 2 = 0 := by simp only [List.length_cons] at hp; omega
      have ih := decodeFrom_digits rest (pre ++ [16 * digitValue p + digitValue q]) post
        hrest hp2 hl2
      have hlt : pre.length < (pre ++ x :: post).length := by simp
      simp only [hex.decodeFrom, hdp.1, hdq.1, gt_iff_lt, hlt, if_true,
        shl_lor_eq _ _ hdp.2 hdq.2, set_append_cons]
      rw [if_neg (by omega), if_neg (by omega)]
      have e : pre ++ (16 * digitValue p + digitValue q) :: post =
          (pre ++ [16 * digitValue p + digitValue q]) ++ post := by simp
      have e2 : pre.length + 1 = (pre ++ [16 * digitValue p + digitValue q]).length := by simp
      rw [e, e2, ih, hlen]
      simp [bytesOfDigits]
      omega

theorem Decode_digits (s b : List Nat) (hd : ∀ c ∈ s, isHexDigit c = true)
    (hp : s.length % 2 = 0) (hl : s.length / 2 ≤ b.length) :
    hex.Decode b s = some ⟨s.length / 2, none, bytesOfDigits s ++ b.drop (s.length / 2)⟩ := by
  have h := decodeFrom_digits s [] b hd hp hl
  simpa [hex.Decode] using h

/-! ## Facts about trimming and the hex reader -/

theorem asciiSpace_lt (c : Nat) (h : bytes.asciiSpace c = true) : ¬ c ≥ 0x80 := by
  simp only [bytes.asciiSpace, Bool.decide_or, Bool.or_eq_true, decide_eq_true_eq] at h
  omega

theorem asciiSpace_not_digit (c : Nat) (h : bytes.asciiSpace c = true) : isHexDigit c = false := by
  simp only [bytes.asciiSpace, Bool.decide_or, Bool.or_eq_true, decide_eq_true_eq] at h
  rcases h with h | h | h | h | h | h <;> subst h <;> decide

theorem TrimSpace_lead (lead rest : List Nat) (h : ∀ c ∈ lead, bytes.asciiSpace c = true) :
    bytes.TrimSpace (lead ++ rest) = bytes.TrimSpace rest := by
  induction lead with
  | nil => rfl
  | cons c lead ih =>
    have hc := h c (List.mem_cons_self _ _)
    have hl : ∀ x ∈ lead, bytes.asciiSpace x = true := fun x hx => h x (List.mem_cons_of_mem _ hx)
    simp only [List.cons_append, bytes.TrimSpace, if_neg (asciiSpace_lt c hc), hc, if_true,
      List.append_eq, ih hl]

theorem trimSpaceEnd_lead (lead rest : List Nat) (h : ∀ c ∈ lead, bytes.asciiSpace c = true) :
    bytes.trimSpaceEnd (lead ++ rest) = bytes.trimSpaceEnd rest := by
  induction lead with
  | nil => rfl
  | cons c lead ih =>
    have hc := h c (List.mem_cons_self _ _)
    have hl : ∀ x ∈ lead, bytes.asciiSpace x = true := fun x hx => h x (List.mem_cons_of_mem _ hx)
    simp only [List.cons_append, bytes.trimSpaceEnd, if_neg (asciiSpace_lt c hc), hc, if_true,
      List.append_eq, ih hl]

theorem Replace_eq_filter (t : List Nat) :
    bytes.Replace t 32 [] = t.filter (fun c => decide (c ≠ 32)) := by
  induction t with
  | nil => rfl
  | cons c t ih =>
    by_cases hc : c = 32
    · simp [bytes.Replace, hc, ih]
    · simp [bytes.Replace, hc, ih]

theorem trimSpaceEnd_mid (r : List Nat) (h : ∀ c ∈ r, isHexDigit c = true ∨ c = 32) :
    (bytes.trimSpaceEnd r).filter (fun c => decide (c ≠ 32)) =
      r.reverse.filter (fun c => decide (c ≠ 32)) := by
  induction r with
  | nil => rfl
  | cons c r ih =>
    have hr : ∀ x ∈ r, isHexDigit x = true ∨ x = 32 := fun x hx => h x (List.mem_cons_of_mem _ hx)
    rcases h c (List.mem_cons_self _ _) with hc | hc
    · have hp := isHexDigit_props c hc
      simp only [bytes.trimSpaceEnd, if_neg (show ¬ c ≥ 0x80 by omega), hp.2.1,
        Bool.false_eq_true, if_false]
    · subst hc
      have e : bytes.trimSpaceEnd (32 :: r) = bytes.trimSpaceEnd r := by
        simp [bytes.trimSpaceEnd, bytes.asciiSpace]
      rw [e, ih hr]
      simp

theorem TrimSpace_chunk (lead mid trail : List Nat)
    (hlead : ∀ c ∈ lead, bytes.asciiSpace c = true)
    (hmid : ∀ c ∈ mid, isHexDigit c = true ∨ c = 32)
    (htrail : ∀ c ∈ trail, bytes.asciiSpace c = true) :
    bytes.Replace (bytes.TrimSpace (lead ++ mid ++ trail)) 32 [] =
      mid.filter (fun c => decide (c ≠ 32)) := by
  rw [Replace_eq_filter, List.append_assoc, TrimSpace_lead _ _ hlead]
  induction mid with
  | nil =>
    have h := TrimSpace_lead trail [] htrail
    simp only [List.append_nil] at h
    simp [h, bytes.TrimSpace]
  | cons c mid ih =>
    have hr : ∀ x ∈ mid, isHexDigit x = true ∨ x = 32 :=
      fun x hx => hmid x (List.mem_cons_of_mem _ hx)
    rcases hmid c (List.mem_cons_self _ _) with hc | hc
    · have hp := isHexDigit_props c hc
      have hrev : ∀ x ∈ trail.reverse, bytes.asciiSpace x = true :=
        fun x hx => htrail x (List.mem_reverse.mp hx)
      have hm : ∀ x ∈ (c :: mid).reverse, isHexDigit x = true ∨ x = 32 :=
        fun x hx => hmid x (List.mem_reverse.mp hx)
      simp only [List.cons_append, bytes.TrimSpace, if_neg (show ¬ c ≥ 0x80 by omega), hp.2.1,
        Bool.false_eq_true, if_false, List.append_eq]
      rw [← List.cons_append, List.reverse_append, trimSpaceEnd_lead _ _ hrev,
        trimSpaceEnd_mid _ hm, List.reverse_reverse]
    · subst hc
      have e : bytes.TrimSpace (32 :: mid ++ trail) = bytes.TrimSpace (mid ++ trail) := by
        simp [bytes.TrimSpace, bytes.asciiSpace]
      rw [e, ih hr]
      simp

theorem filter_digits_chunk (lead mid trail : List Nat)
    (hlead : ∀ c ∈ lead, bytes.asciiSpace c = true)
    (hmid : ∀ c ∈ mid, isHexDigit c = true ∨ c = 32)
    (htrail : ∀ c ∈ trail, bytes.asciiSpace c = true) :
    (lead ++ mid ++ trail).filter isHexDigit = mid.filter (fun c => decide (c ≠ 32)) := by
  have h1 : lead.filter isHexDigit = [] := by
    rw [List.filter_eq_nil_iff]
    intro c hc
    simp [asciiSpace_not_digit c (hlead c hc)]
  have h2 : trail.filter isHexDigit = [] := by
    rw [List.filter_eq_nil_iff]
    intro c hc
    simp [asciiSpace_not_digit c (htrail c hc)]
  have h3 : mid.filter isHexDigit = mid.filter (fun c => decide (c ≠ 32)) := by
    apply List.filter_congr
    intro c hc
    rcases hmid c hc with h | h
    · simp [h, (isHexDigit_props c h).2.2.2]
    · subst h; decide
  simp [List.filter_append, h1, h2, h3]

theorem hexReader_Read_plain (r : hexReader) (b chunk : List Nat)
    (hsrc : r.src (b.length * 2) = ⟨chunk, none⟩) (hfit : chunk.length ≤ b.length * 2)
    (hx : 120 ∉ chunk.take 2) :
    r.Read b = hex.Decode b (bytes.Replace (bytes.TrimSpace chunk) 32 []) := by
  have h0x : ¬ (chunk.length > 2 ∧ chunk.take 2 = ascii "0x") := by
    rintro ⟨_, h⟩
    apply hx
    rw [h]
    decide
  simp only [hexReader.Read, hsrc, if_neg (show ¬ chunk.length > b.length * 2 by omega),
    if_neg h0x]

theorem hexReader_Read_0x (r : hexReader) (b s : List Nat)
    (hsrc : r.src (b.length * 2) = ⟨ascii "0x" ++ s, none⟩)
    (hfit : (ascii "0x" ++ s).length ≤ b.length * 2) (hs : s ≠ []) :
    r.Read b = hex.Decode b (bytes.Replace (bytes.TrimSpace s) 32 []) := by
  have hlen : (ascii "0x" ++ s).length = s.length + 2 := by
    simp [ascii]
  have hpos : 0 < s.length := List.length_pos.mpr hs
  have h0x : (ascii "0x" ++ s).length > 2 ∧ (ascii "0x" ++ s).take 2 = ascii "0x" := by
    refine ⟨by omega, ?_⟩
    have : (ascii "0x").length = 2 := by decide
    rw [List.take_append_of_le_length (by omega)]
    exact List.take_of_length_le (by omega)
  have hdrop : (ascii "0x" ++ s).drop 2 = s := by
    have : (ascii "0x").length = 2 := by decide
    rw [← this, List.drop_left]
  simp only [hexReader.Read, hsrc,
    if_neg (show ¬ (ascii "0x" ++ s).length > b.length * 2 by omega), if_pos h0x, hdrop]

theorem hexWriter_WriteAll_calls (chunks : List (List Nat)) :
    ∀ w : hexWriter, (∀ c ∈ chunks, IsBytes c) →
      (w.WriteAll chunks).1.dst.calls =
          w.dst.calls ++ (chunks.filter (fun c => decide (c ≠ []))).map lowerHex ∧
        (w.WriteAll chunks).2 = chunks.map (fun c => (c.length, none)) := by
  induction chunks with
  | nil => intro w _; simp [hexWriter.WriteAll]
  | cons c rest ih =>
    intro w hB
    have hc : IsBytes c := hB c (List.mem_cons_self _ _)
    have hrest : ∀ x ∈ rest, IsBytes x := fun x hx => hB x (List.mem_cons_of_mem _ hx)
    by_cases hnil : c = []
    · subst hnil
      have e : w.Write [] = (w, (0, none)) := by simp [hexWriter.Write]
      have h := ih w hrest
      simp only [hexWriter.WriteAll, e, h.1, h.2]
      simp
    · have hlen : ¬ c.length = 0 := fun h => hnil (List.length_eq_zero.mp h)
      have e : w.Write c = (⟨(w.dst.Write (hex.EncodeToString c)).1⟩, (c.length, none)) := by
        simp [hexWriter.Write, hlen]
      have h := ih ⟨(w.dst.Write (hex.EncodeToString c)).1⟩ hrest
      simp only [hexWriter.WriteAll, e, h.1, h.2]
      simp [Writer.Write, hnil, EncodeToString_eq_lowerHex c hc]

theorem lowerHex_append (A B : List Nat) : lowerHex (A ++ B) = lowerHex A ++ lowerHex B := by
  simp [lowerHex]

theorem lowerHex_length (B : List Nat) : (lowerHex B).length = 2 * B.length := by
  induction B with
  | nil => rfl
  | cons v rest ih =>
    have e : lowerHex (v :: rest) = lowerHex [v] ++ lowerHex rest := lowerHex_append [v] rest
    rw [e, List.length_append, ih]
    simp [lowerHex]
    omega

theorem flatten_map_lowerHex (chunks : List (List Nat)) :
    ((chunks.filter (fun c => decide (c ≠ []))).map lowerHex).flatten = lowerHex chunks.flatten := by
  induction chunks with
  | nil => rfl
  | cons c rest ih =>
    by_cases hnil : c = []
    · subst hnil
      simpa using ih
    · simp only [ne_eq, decide_not] at ih
      simp [hnil, lowerHex_append, ih]

/-! ## Facts about go-base58 -/

theorem encodeLoop_eq (α : List Nat) : ∀ fuel x : Nat, x ≤ fuel →
    base58.encodeLoop α fuel x = (Nat.digits 58 x).map (fun d => α.getD d 0)
  | 0, x, h => by
    have : x = 0 := by omega
    subst this
    simp [base58.encodeLoop]
  | fuel + 1, x, h => by
    by_cases hx : x = 0
    · subst hx
      simp [base58.encodeLoop]
    · have hpos : 0 < x := Nat.pos_of_ne_zero hx
      have hdiv : x / 58 ≤ fuel := by
        have : x / 58 < x := Nat.div_lt_self hpos (by norm_num)
        omega
      rw [Nat.digits_def' (by norm_num) hpos]
      simp only [base58.encodeLoop, gt_iff_lt, hpos, if_true, encodeLoop_eq α fuel _ hdiv,
        List.map_cons]

theorem bytesLE_eq : ∀ fuel x : Nat, x ≤ fuel → big.bytesLE fuel x = Nat.digits 256 x
  | 0, x, h => by
    have : x = 0 := by omega
    subst this
    simp [big.bytesLE]
  | fuel + 1, x, h => by
    by_cases hx : x = 0
    · subst hx
      simp [big.bytesLE]
    · have hpos : 0 < x := Nat.pos_of_ne_zero hx
      have hdiv : x / 256 ≤ fuel := by
        have : x / 256 < x := Nat.div_lt_self hpos (by norm_num)
        omega
      rw [Nat.digits_def' (by norm_num) hpos]
      simp only [big.bytesLE, hx, if_false, bytesLE_eq fuel _ hdiv]

theorem Bytes_eq (x : Nat) : big.Bytes x = (Nat.digits 256 x).reverse := by
  rw [big.Bytes, bytesLE_eq x x (le_refl x)]

theorem foldl_eq_ofDigits (b : List Nat) : ∀ acc : Nat,
    b.foldl (fun x v => x * 256 + v) acc = acc * 256 ^ b.length + Nat.ofDigits 256 b.reverse := by
  induction b with
  | nil => intro acc; simp
  | cons v rest ih =>
    intro acc
    simp only [List.foldl_cons, ih, List.reverse_cons, Nat.ofDigits_append, List.length_reverse,
      Nat.ofDigits_singleton, List.length_cons]
    ring

theorem SetBytes_eq (b : List Nat) : big.SetBytes b = Nat.ofDigits 256 b.reverse := by
  simp [big.SetBytes, foldl_eq_ofDigits]

theorem ofDigits_replicate_zero (k : Nat) : Nat.ofDigits 256 (List.replicate k 0) = 0 := by
  induction k with
  | zero => rfl
  | succ k ih => simp [List.replicate_succ, Nat.ofDigits_cons, ih]

theorem SetBytes_zeros (k : Nat) (B : List Nat) :
    big.SetBytes (List.replicate k 0 ++ B) = big.SetBytes B := by
  simp [SetBytes_eq, Nat.ofDigits_append, ofDigits_replicate_zero]

/-- Every byte sequence is a run of zero bytes followed by a sequence that is
empty or starts with a non-zero byte. -/
theorem split_zeros (B : List Nat) :
    ∃ k B1, B = List.replicate k 0 ++ B1 ∧ ∀ h : B1 ≠ [], B1.head h ≠ 0 := by
  induction B with
  | nil => exact ⟨0, [], rfl, fun h => absurd rfl h⟩
  | cons v rest ih =>
    by_cases hv : v = 0
    · obtain ⟨k, B1, h1, h2⟩ := ih
      refine ⟨k + 1, B1, ?_, h2⟩
      rw [hv, h1, List.replicate_succ, List.cons_append]
    · exact ⟨0, v :: rest, rfl, fun _ => hv⟩

theorem Bytes_SetBytes (B1 : List Nat) (hB : IsBytes B1) (hhead : ∀ h : B1 ≠ [], B1.head h ≠ 0) :
    big.Bytes (big.SetBytes B1) = B1 := by
  rw [Bytes_eq, SetBytes_eq, Nat.digits_ofDigits 256 (by norm_num) B1.reverse
    (fun l hl => hB l (List.mem_reverse.mp hl))
    (fun h => by
      have hne : B1 ≠ [] := fun e => h (by simp [e])
      rw [List.getLast_reverse]
      exact hhead hne),
    List.reverse_reverse]

theorem leadingZeros_eq (α : List Nat) (k : Nat) (B1 : List Nat)
    (hhead : ∀ h : B1 ≠ [], B1.head h ≠ 0) :
    base58.leadingZeros α (List.replicate k 0 ++ B1) = List.replicate k (α.getD 0 0) := by
  induction k with
  | zero =>
    match B1, hhead with
    | [], _ => rfl
    | v :: rest, hh =>
      have : v ≠ 0 := hh (by simp)
      simp [base58.leadingZeros, this]
  | succ k ih =>
    simp only [List.replicate_succ, List.cons_append, base58.leadingZeros, ne_eq,
      not_true_eq_false, if_false, List.append_eq, ih]

theorem index_alphabet (d : Nat) (h : d < 58) :
    base58.index base58.BTCAlphabet (base58.BTCAlphabet.getD d 0) = some d := by
  interval_cases d <;> decide

theorem alphabet_ne_first (d : Nat) (h : d < 58) (h0 : d ≠ 0) :
    base58.BTCAlphabet.getD d 0 ≠ base58.BTCAlphabet.getD 0 0 := by
  intro e
  have h1 := index_alphabet d h
  rw [e, index_alphabet 0 (by norm_num)] at h1
  exact h0 (Option.some.inj h1).symm

theorem decodeLoop_digits (rest : List Nat) : ∀ (L : List Nat) (answer j : Nat),
    (∀ d ∈ L, d < 58) →
    base58.decodeLoop base58.BTCAlphabet
        (L.map (fun d => base58.BTCAlphabet.getD d 0) ++ rest) answer j =
      base58.decodeLoop base58.BTCAlphabet rest (answer + j * Nat.ofDigits 58 L)
        (j * 58 ^ L.length)
  | [], answer, j, _ => by simp
  | d :: L, answer, j, h => by
    have hd : d < 58 := h d (List.mem_cons_self _ _)
    have hL : ∀ x ∈ L, x < 58 := fun x hx => h x (List.mem_cons_of_mem _ hx)
    simp only [List.map_cons, List.cons_append, base58.decodeLoop, index_alphabet d hd,
      List.append_eq]
    rw [decodeLoop_digits rest L _ _ hL]
    simp only [Nat.ofDigits_cons, List.length_cons]
    congr 1 <;> ring

theorem decodeLoop_ones (k : Nat) : ∀ answer j : Nat,
    base58.decodeLoop base58.BTCAlphabet
      (List.replicate k (base58.BTCAlphabet.getD 0 0)) answer j = some answer := by
  induction k with
  | zero => intro answer j; rfl
  | succ k ih =>
    intro answer j
    simp only [List.replicate_succ, base58.decodeLoop, index_alphabet 0 (by norm_num), ih]
    simp

theorem numZeros_ones (k : Nat) (t : List Nat)
    (ht : ∀ h : t ≠ [], t.head h ≠ base58.BTCAlphabet.getD 0 0) :
    base58.numZeros base58.BTCAlphabet
      (List.replicate k (base58.BTCAlphabet.getD 0 0) ++ t) = k := by
  induction k with
  | zero =>
    match t, ht with
    | [], _ => rfl
    | c :: rest, hh =>
      have : c ≠ base58.BTCAlphabet.getD 0 0 := hh (by simp)
      simp only [List.replicate_zero, List.nil_append, base58.numZeros]
      rw [if_pos this]
  | succ k ih =>
    simp only [List.replicate_succ, List.cons_append, base58.numZeros, ne_eq,
      not_true_eq_false, if_false, List.append_eq, ih]

/-- The shape of an encoding: one character `1` for each of the `k` leading
zero bytes, then the base-58 digits of the number, most significant first. -/
theorem Encode_eq (k : Nat) (B1 : List Nat) (hhead : ∀ h : B1 ≠ [], B1.head h ≠ 0) :
    base58.Encode (List.replicate k 0 ++ B1) =
      List.replicate k (base58.BTCAlphabet.getD 0 0) ++
        ((Nat.digits 58 (big.SetBytes B1)).map (fun d => base58.BTCAlphabet.getD d 0)).reverse := by
  simp only [base58.Encode, base58.EncodeAlphabet, SetBytes_zeros,
    encodeLoop_eq _ _ _ (le_refl _), leadingZeros_eq _ k B1 hhead, List.reverse_append,
    List.reverse_replicate]

theorem Decode_Encode (B : List Nat) (hB : IsBytes B) : base58.Decode (base58.Encode B) = B := by
  obtain ⟨k, B1, hsplit, hhead⟩ := split_zeros B
  have hB1 : IsBytes B1 := fun x hx => hB x (by rw [hsplit]; simp [hx])
  have hdig : ∀ d ∈ Nat.digits 58 (big.SetBytes B1), d < 58 :=
    fun d hd => Nat.digits_lt_base (by norm_num) hd
  have hzeros : base58.numZeros base58.BTCAlphabet
      (List.replicate k (base58.BTCAlphabet.getD 0 0) ++
        ((Nat.digits 58 (big.SetBytes B1)).map
          (fun d => base58.BTCAlphabet.getD d 0)).reverse) = k := by
    apply numZeros_ones
    intro hne
    have hne2 : Nat.digits 58 (big.SetBytes B1) ≠ [] := by
      intro e
      apply hne
      simp [e]
    have hx : big.SetBytes B1 ≠ 0 := fun e => hne2 (by simp [e])
    have hlast := Nat.getLast_digit_ne_zero 58 hx
    have hmem := List.getLast_mem hne2
    rw [List.head_reverse, List.getLast_map]
    exact alphabet_ne_first _ (hdig _ hmem) hlast
  rw [hsplit, Encode_eq k B1 hhead]
  simp only [base58.Decode, base58.DecodeAlphabet, hzeros, List.reverse_append,
    List.reverse_reverse, List.reverse_replicate, decodeLoop_digits _ _ _ _ hdig,
    decodeLoop_ones, Nat.ofDigits_digits, zero_add, one_mul, Bytes_SetBytes B1 hB1 hhead]

theorem pow_le_pow_two (n : Nat) : 256 ^ n ≤ 58 ^ (2 * n) := by
  rw [pow_mul]
  exact Nat.pow_le_pow_left (by norm_num) n

theorem digits58_length_le (B1 : List Nat) (hB : IsBytes B1) :
    (Nat.digits 58 (big.SetBytes B1)).length ≤ 2 * B1.length := by
  by_contra hcon
  have hlt : big.SetBytes B1 < 256 ^ B1.length := by
    rw [SetBytes_eq]
    have := Nat.ofDigits_lt_base_pow_length (b := 256) (l := B1.reverse) (by norm_num)
      (fun x hx => hB x (List.mem_reverse.mp hx))
    simpa using this
  have hne : big.SetBytes B1 ≠ 0 := by
    intro e
    rw [e] at hcon
    simp at hcon
  have h1 := Nat.base_pow_length_digits_le 58 (big.SetBytes B1) (by norm_num) hne
  have h2 : 58 ^ (2 * B1.length + 1) ≤ 58 ^ (Nat.digits 58 (big.SetBytes B1)).length :=
    Nat.pow_le_pow_right (by norm_num) (by omega)
  have h3 := pow_le_pow_two B1.length
  rw [pow_succ] at h2
  omega

theorem Encode_length_le (B : List Nat) (hB : IsBytes B) :
    (base58.Encode B).length ≤ 2 * B.length := by
  obtain ⟨k, B1, hsplit, hhead⟩ := split_zeros B
  have hB1 : IsBytes B1 := fun x hx => hB x (by rw [hsplit]; simp [hx])
  have h := digits58_length_le B1 hB1
  rw [hsplit, Encode_eq k B1 hhead]
  simp only [List.length_append, List.length_replicate, List.length_reverse, List.length_map]
  omega

theorem decodeLoop_invalid (c : Nat) (hc : c ∉ base58.BTCAlphabet) : ∀ (t : List Nat)
    (answer j : Nat), c ∈ t → base58.decodeLoop base58.BTCAlphabet t answer j = none
  | [], _, _, h => by cases h
  | x :: t, answer, j, h => by
    by_cases hx : x = c
    · subst hx
      simp [base58.decodeLoop, base58.index, hc]
    · have ht : c ∈ t := by
        rcases List.mem_cons.mp h with h | h
        · exact absurd h.symm hx
        · exact h
      cases hi : base58.index base58.BTCAlphabet x with
      | none => simp [base58.decodeLoop, hi]
      | some idx => simp [base58.decodeLoop, hi, decodeLoop_invalid c hc t _ _ ht]

theorem Decode_invalid (chunk : List Nat) (h : ∃ c ∈ chunk, c ∉ base58.BTCAlphabet) :
    base58.Decode chunk = [] := by
  obtain ⟨c, hmem, hc⟩ := h
  simp [base58.Decode, base58.DecodeAlphabet,
    decodeLoop_invalid c hc chunk.reverse 0 1 (List.mem_reverse.mpr hmem)]

theorem b58Writer_Write_calls (w : b58Writer) (b : List Nat) :
    (w.Write b).1.w.calls = w.w.calls ++ [base58.Encode b] := by
  simp only [b58Writer.Write, Writer.Write]
  split <;> rfl

theorem b58Writer_WriteAll_calls (chunks : List (List Nat)) : ∀ w : b58Writer,
    (w.WriteAll chunks).1.w.calls = w.w.calls ++ chunks.map base58.Encode := by
  induction chunks with
  | nil => intro w; simp [b58Writer.WriteAll]
  | cons c rest ih =>
    intro w
    simp only [b58Writer.WriteAll, ih, b58Writer_Write_calls, List.map_cons, List.append_assoc,
      List.singleton_append]

theorem b58Reader_Read_chunk (r : b58Reader) (b chunk : List Nat)
    (hsrc : r.src (b.length * 2) = ⟨chunk, none⟩) (hfit : chunk.length ≤ b.length * 2) :
    r.Read b =
      if (base58.Decode chunk).length = 0 then
        some ⟨0, some (Error.Errorf "invalid base58 input"), b⟩
      else some ⟨(copy b (base58.Decode chunk)).1, none, (copy b (base58.Decode chunk)).2⟩ := by
  simp only [b58Reader.Read, hsrc, if_neg (show ¬ chunk.length > b.length * 2 by omega)]

theorem getD_indexOf (l : List Nat) (c : Nat) (h : c ∈ l) : l.getD (l.indexOf c) 0 = c := by
  have hlt : l.indexOf c < l.length := List.indexOf_lt_length.mpr h
  rw [List.getD_eq_getElem _ _ hlt]
  exact List.getElem_indexOf hlt

theorem decodeLoop_valid (t : List Nat) (h : ∀ c ∈ t, c ∈ base58.BTCAlphabet) :
    base58.decodeLoop base58.BTCAlphabet t 0 1 =
      some (Nat.ofDigits 58 (t.map (fun c => base58.BTCAlphabet.indexOf c))) := by
  have hmap : (t.map (fun c => base58.BTCAlphabet.indexOf c)).map
      (fun d => base58.BTCAlphabet.getD d 0) = t := by
    rw [List.map_map]
    conv_rhs => rw [← List.map_id t]
    apply List.map_congr_left
    intro c hc
    exact getD_indexOf _ c (h c hc)
  have hlt : ∀ d ∈ t.map (fun c => base58.BTCAlphabet.indexOf c), d < 58 := by
    intro d hd
    obtain ⟨c, hc, rfl⟩ := List.mem_map.mp hd
    have h58 : base58.BTCAlphabet.length = 58 := by decide
    rw [← h58]
    exact List.indexOf_lt_length.mpr (h c hc)
  have hd := decodeLoop_digits [] _ 0 1 hlt
  rw [List.append_nil, hmap] at hd
  rw [hd]
  simp [base58.decodeLoop]

/-- A non-empty text of alphabet characters decodes to at least one byte. -/
theorem Decode_valid_ne_nil (chunk : List Nat) (hne : chunk ≠ [])
    (h : ∀ c ∈ chunk, c ∈ base58.BTCAlphabet) : base58.Decode chunk ≠ [] := by
  have hrev : ∀ c ∈ chunk.reverse, c ∈ base58.BTCAlphabet :=
    fun c hc => h c (List.mem_reverse.mp hc)
  match chunk, hne, h, hrev with
  | c0 :: rest, _, h, hrev =>
    simp only [base58.Decode, base58.DecodeAlphabet, decodeLoop_valid _ hrev]
    by_cases hc0 : c0 = base58.BTCAlphabet.getD 0 0
    · simp [base58.numZeros, hc0, List.replicate_succ]
    · have hidx : base58.BTCAlphabet.indexOf c0 ≠ 0 := by
        intro e
        apply hc0
        have := getD_indexOf _ c0 (h c0 (List.mem_cons_self _ _))
        rw [e] at this
        exact this.symm
      have hL : (c0 :: rest).reverse.map (fun c => base58.BTCAlphabet.indexOf c) =
          rest.reverse.map (fun c => base58.BTCAlphabet.indexOf c) ++
            [base58.BTCAlphabet.indexOf c0] := by
        simp
      have hlt : ∀ d ∈ (c0 :: rest).reverse.map (fun c => base58.BTCAlphabet.indexOf c),
          d < 58 := by
        intro d hd
        obtain ⟨c, hc, rfl⟩ := List.mem_map.mp hd
        have h58 : base58.BTCAlphabet.length = 58 := by decide
        rw [← h58]
        exact List.indexOf_lt_length.mpr (hrev c hc)
      have hdig := Nat.digits_ofDigits 58 (by norm_num)
        ((c0 :: rest).reverse.map (fun c => base58.BTCAlphabet.indexOf c)) hlt
        (fun hnil => by
          simp only [hL, List.getLast_append_singleton]
          exact hidx)
      have hx : Nat.ofDigits 58
          ((c0 :: rest).reverse.map (fun c => base58.BTCAlphabet.indexOf c)) ≠ 0 := by
        intro e
        rw [e, Nat.digits_zero, hL] at hdig
        exact absurd hdig.symm (by simp)
      intro hnil
      have hb := (List.append_eq_nil.mp hnil).2
      rw [Bytes_eq, List.reverse_eq_nil_iff, Nat.digits_eq_nil_iff_eq_zero] at hb
      exact hx hb

theorem Decode_length_zero_iff (chunk : List Nat) (hne : chunk ≠ []) :
    (base58.Decode chunk).length = 0 ↔ ∃ c ∈ chunk, c ∉ base58.BTCAlphabet := by
  constructor
  · intro hz
    by_contra hno
    have hall : ∀ c ∈ chunk, c ∈ base58.BTCAlphabet := by
      intro c hc
      by_contra hcn
      exact hno ⟨c, hc, hcn⟩
    exact Decode_valid_ne_nil chunk hne hall (List.length_eq_zero.mp hz)
  · intro h
    rw [Decode_invalid chunk h]
    rfl

/-! ## The claims about the hex adapters -/

/-- C1. Hex round trip: when the text that one `hexWriter.Write` of the bytes
`B` hands to a fresh destination is delivered to `hexReader.Read` in a single
read, and the destination buffer `b` has at least `len(B)` bytes, `Read` returns
`n = len(B)` with a nil error and leaves the bytes of `B` at the start of `b`. -/
theorem hex_round_trip (B b : List Nat) (w : hexWriter) (r : hexReader)
    (hB : IsBytes B) (hlen : B.length ≤ b.length) (hw : w.dst.calls = [])
    (hsrc : r.src (b.length * 2) = ⟨(w.Write B).1.dst.emitted, none⟩) :
    r.Read b = some ⟨B.length, none, B ++ b.drop B.length⟩ := by
  have htext : (w.Write B).1.dst.emitted = hex.EncodeToString B := by
    by_cases hnil : B = []
    · subst hnil
      simp [hexWriter.Write, Writer.emitted, hw, hex.EncodeToString]
    · have hl : ¬ B.length = 0 := fun h => hnil (List.length_eq_zero.mp h)
      simp [hexWriter.Write, Writer.emitted, Writer.Write, hw, hl]
  rw [htext] at hsrc
  have hdig := EncodeToString_digits B hB
  have hfit : (hex.EncodeToString B).length ≤ b.length * 2 := by
    rw [EncodeToString_length]; omega
  have hx : 120 ∉ (hex.EncodeToString B).take 2 := by
    intro h
    have := (isHexDigit_props 120 (hdig 120 (List.mem_of_mem_take h))).2.2.1
    exact this rfl
  have hmid : ∀ c ∈ hex.EncodeToString B, isHexDigit c = true ∨ c = 32 :=
    fun c hc => Or.inl (hdig c hc)
  have htrim := TrimSpace_chunk [] (hex.EncodeToString B) [] (by simp) hmid (by simp)
  have hfilt : (hex.EncodeToString B).filter (fun c => decide (c ≠ 32)) = hex.EncodeToString B := by
    rw [List.filter_eq_self]
    intro c hc
    simpa using (isHexDigit_props c (hdig c hc)).2.2.2
  simp only [List.nil_append, List.append_nil] at htrim
  rw [hexReader_Read_plain r b _ hsrc hfit hx, htrim, hfilt,
    Decode_digits _ b hdig (by rw [EncodeToString_length]; omega)
      (by rw [EncodeToString_length]; omega),
    bytesOfDigits_EncodeToString B hB, EncodeToString_length]
  have : 2 * B.length / 2 = B.length := by omega
  rw [this]

/-- Witness of C1: the bytes DE AD, written once and read back into a buffer of
three bytes. -/
theorem hex_round_trip_witness :
    hexReader.Read ⟨pending (ascii "dead")⟩ [0, 0, 0] = some ⟨2, none, [0xDE, 0xAD, 0]⟩ :=
  hex_round_trip [0xDE, 0xAD] [0, 0, 0] ⟨⟨[], fun _ _ => (0, none)⟩⟩ ⟨pending (ascii "dead")⟩
    (by decide) (by decide) rfl (by decide)

/-- Counterexample to C3 as stated: on the chunk "DE AD\nBE EF" `hexReader.Read`
returns an error, not the four bytes DE AD BE EF; the newline inside the chunk
reaches `hex.Decode`. -/
theorem hex_interior_newline_rejected :
    ∃ res, hexReader.Read ⟨pending (ascii "DE AD\nBE EF")⟩ [0, 0, 0, 0, 0, 0, 0, 0] = some res
      ∧ res.err = some (Error.InvalidByteError 10) ∧ res.n ≠ 4 :=
  ⟨⟨2, some (Error.InvalidByteError 10), [0xDE, 0xAD, 0, 0, 0, 0, 0, 0]⟩, by decide, rfl,
    by decide⟩

/-- C3, amended. Hex whitespace tolerance: for every chunk that fits the read
buffer and is made of ASCII white space at its start (`lead`) and at its end
(`trail`) and, between them, of hex digits interleaved with spaces (`mid`), and
whose digits form an even-length string, `hexReader.Read` returns without error
exactly the bytes that the digits denote. -/
theorem hex_whitespace_tolerance (r : hexReader) (b lead mid trail : List Nat)
    (hlead : ∀ c ∈ lead, bytes.asciiSpace c = true)
    (hmid : ∀ c ∈ mid, isHexDigit c = true ∨ c = 32)
    (htrail : ∀ c ∈ trail, bytes.asciiSpace c = true)
    (hsrc : r.src (b.length * 2) = ⟨lead ++ mid ++ trail, none⟩)
    (hfit : (lead ++ mid ++ trail).length ≤ b.length * 2)
    (heven : ((lead ++ mid ++ trail).filter isHexDigit).length % 2 = 0) :
    r.Read b = some ⟨((lead ++ mid ++ trail).filter isHexDigit).length / 2, none,
      bytesOfDigits ((lead ++ mid ++ trail).filter isHexDigit) ++
        b.drop (((lead ++ mid ++ trail).filter isHexDigit).length / 2)⟩ := by
  have hx : 120 ∉ (lead ++ mid ++ trail).take 2 := by
    intro h
    have hm := List.mem_of_mem_take h
    simp only [List.mem_append] at hm
    rcases hm with (hm | hm) | hm
    · exact absurd (hlead 120 hm) (by decide)
    · rcases hmid 120 hm with h1 | h1
      · exact absurd h1 (by decide)
      · exact absurd h1 (by decide)
    · exact absurd (htrail 120 hm) (by decide)
  have hdig : ∀ c ∈ (lead ++ mid ++ trail).filter isHexDigit, isHexDigit c = true :=
    fun c hc => (List.mem_filter.mp hc).2
  have hl : ((lead ++ mid ++ trail).filter isHexDigit).length / 2 ≤ b.length := by
    have := List.length_filter_le isHexDigit (lead ++ mid ++ trail)
    omega
  rw [hexReader_Read_plain r b _ hsrc hfit hx, TrimSpace_chunk lead mid trail hlead hmid htrail,
    ← filter_digits_chunk lead mid trail hlead hmid htrail, Decode_digits _ b hdig heven hl]

/-- Witness of C3 amended: the chunk "\tDE AD BE EF \n" yields DE AD BE EF. -/
theorem hex_whitespace_tolerance_witness :
    hexReader.Read ⟨pending (ascii "\tDE AD BE EF \n")⟩ [0, 0, 0, 0, 0, 0, 0] =
      some ⟨4, none, [0xDE, 0xAD, 0xBE, 0xEF, 0, 0, 0]⟩ :=
  hex_whitespace_tolerance ⟨pending (ascii "\tDE AD BE EF \n")⟩ [0, 0, 0, 0, 0, 0, 0]
    (ascii "\t") (ascii "DE AD BE EF ") (ascii "\n") (by decide) (by decide) (by decide)
    (by decide) (by decide) (by decide)

/-- C4. Hex prefix tolerance: for every non-empty even-length string `s` of hex
digits of either case, `hexReader.Read` on the chunk "0x" followed by `s`
returns the same count, the same error status and the same bytes as on the
chunk `s`, namely the bytes that `s` denotes with a nil error, when the read
buffer holds the longer chunk. -/
theorem hex_prefix_tolerance (r1 r2 : hexReader) (b s : List Nat) (hs : s ≠ [])
    (hd : ∀ c ∈ s, isHexDigit c = true) (heven : s.length % 2 = 0)
    (h1 : r1.src (b.length * 2) = ⟨ascii "0x" ++ s, none⟩)
    (h2 : r2.src (b.length * 2) = ⟨s, none⟩)
    (hfit : (ascii "0x" ++ s).length ≤ b.length * 2) :
    r1.Read b = r2.Read b ∧
      r2.Read b = some ⟨s.length / 2, none, bytesOfDigits s ++ b.drop (s.length / 2)⟩ := by
  have hlen : (ascii "0x" ++ s).length = s.length + 2 := by simp [ascii]
  have hx : 120 ∉ s.take 2 := by
    intro h
    exact (isHexDigit_props 120 (hd 120 (List.mem_of_mem_take h))).2.2.1 rfl
  have hmid : ∀ c ∈ s, isHexDigit c = true ∨ c = 32 := fun c hc => Or.inl (hd c hc)
  have htrim := TrimSpace_chunk [] s [] (by simp) hmid (by simp)
  have hfilt : s.filter (fun c => decide (c ≠ 32)) = s := by
    rw [List.filter_eq_self]
    intro c hc
    simpa using (isHexDigit_props c (hd c hc)).2.2.2
  simp only [List.nil_append, List.append_nil] at htrim
  rw [hexReader_Read_0x r1 b s h1 hfit hs, hexReader_Read_plain r2 b s h2 (by omega) hx, htrim,
    hfilt, Decode_digits s b hd heven (by omega)]
  exact ⟨rfl, rfl⟩

/-- Witness of C4: "0xDEADBEEF" and "DEADBEEF" both yield DE AD BE EF. -/
theorem hex_prefix_tolerance_witness :
    hexReader.Read ⟨pending (ascii "0xDEADBEEF")⟩ [0, 0, 0, 0, 0] =
        hexReader.Read ⟨pending (ascii "DEADBEEF")⟩ [0, 0, 0, 0, 0] ∧
      hexReader.Read ⟨pending (ascii "DEADBEEF")⟩ [0, 0, 0, 0, 0] =
        some ⟨4, none, [0xDE, 0xAD, 0xBE, 0xEF, 0]⟩ :=
  hex_prefix_tolerance ⟨pending (ascii "0xDEADBEEF")⟩ ⟨pending (ascii "DEADBEEF")⟩
    [0, 0, 0, 0, 0] (ascii "DEADBEEF") (by decide) (by decide) (by decide) (by decide)
    (by decide) (by decide)

/-- C5. Hex encoding: for every sequence of byte chunks written to a
`hexWriter`, each non-empty chunk is handed to the destination as its lowercase
two-digits-per-byte hex representation, so the text emitted is the
representation of the concatenation of the chunks, its length is twice the
number of bytes written, and every `Write` answers `len(chunk)` with a nil
error. -/
theorem hexWriter_emits_lowerHex (w : hexWriter) (chunks : List (List Nat))
    (hB : ∀ c ∈ chunks, IsBytes c) :
    (w.WriteAll chunks).1.dst.calls =
        w.dst.calls ++ (chunks.filter (fun c => decide (c ≠ []))).map lowerHex ∧
      (w.WriteAll chunks).1.dst.emitted = w.dst.emitted ++ lowerHex chunks.flatten ∧
      (lowerHex chunks.flatten).length = 2 * chunks.flatten.length ∧
      (w.WriteAll chunks).2 = chunks.map (fun c => (c.length, none)) := by
  have h := hexWriter_WriteAll_calls chunks w hB
  refine ⟨h.1, ?_, lowerHex_length _, h.2⟩
  simp only [Writer.emitted, h.1, List.flatten_append, flatten_map_lowerHex]

/-- Witness of C5: the bytes 00 01 02, written in two chunks to a fresh
destination, yield the literal string "000102". -/
theorem hexWriter_emits_lowerHex_witness :
    (hexWriter.WriteAll ⟨⟨[], fun _ _ => (0, none)⟩⟩ [[0, 1], [2]]).1.dst.emitted =
        ascii "000102" ∧
      (hexWriter.WriteAll ⟨⟨[], fun _ _ => (0, none)⟩⟩ [[0, 1], [2]]).2 =
        [(2, none), (1, none)] :=
  have h := hexWriter_emits_lowerHex ⟨⟨[], fun _ _ => (0, none)⟩⟩ [[0, 1], [2]] (by decide)
  ⟨h.2.1, h.2.2.2⟩

/-! ## The claims about the Base58 adapters -/

/-- C2. Base58 round trip: for every byte sequence `B`, the empty one and those
with leading zero bytes included, when the text that one `b58Writer.Write` of
`B` hands to a fresh destination is all the input and is delivered to
`b58Reader.Read` in a single read, and the destination buffer `b` has at least
`len(B)` bytes, `Read` returns `n = len(B)` and leaves the bytes of `B` at the
start of `b`.  Its error is nil for a non-empty `B`; for the empty `B` the text is
empty, the source is at the end of its input and `Read` passes on `io.EOF`, the
regular end of the stream.  In both cases `io.Copy` reports no error. -/
theorem b58_round_trip (B b : List Nat) (w : b58Writer) (r : b58Reader)
    (hB : IsBytes B) (hlen : B.length ≤ b.length) (hw : w.w.calls = [])
    (hsrc : r.src (b.length * 2) = stdin (w.Write B).1.w.emitted (b.length * 2)) :
    r.Read b =
        some ⟨B.length, if B = [] then some Error.EOF else none, B ++ b.drop B.length⟩ ∧
      (r.Read b).map (fun res => copyErr res.err) = some none := by
  have htext : (w.Write B).1.w.emitted = base58.Encode B := by
    simp [Writer.emitted, b58Writer_Write_calls, hw]
  rw [htext] at hsrc
  have hfit : (base58.Encode B).length ≤ b.length * 2 := by
    have := Encode_length_le B hB
    omega
  have hread : r.Read b =
      some ⟨B.length, if B = [] then some Error.EOF else none, B ++ b.drop B.length⟩ := by
    by_cases hnil : B = []
    · subst hnil
      have he : base58.Encode [] = [] := by decide
      rw [he] at hsrc
      simp [b58Reader.Read, hsrc, stdin]
    · have hpos : ¬ B.length = 0 := fun h => hnil (List.length_eq_zero.mp h)
      have henc : base58.Encode B ≠ [] := by
        intro e
        have hd := Decode_Encode B hB
        rw [e] at hd
        exact hnil (hd.symm.trans (by decide))
      have hsrc2 : r.src (b.length * 2) = ⟨base58.Encode B, none⟩ := by
        rw [hsrc]
        simp only [stdin, if_neg henc, List.take_of_length_le hfit]
      rw [b58Reader_Read_chunk r b _ hsrc2 hfit, Decode_Encode B hB, if_neg hpos, if_neg hnil]
      simp only [copy, List.take_of_length_le hlen, Nat.min_eq_right hlen]
  refine ⟨hread, ?_⟩
  rw [hread]
  by_cases hnil : B = []
  · simp [hnil, copyErr]
  · simp [hnil, copyErr]

/-- Witness of C2: the bytes 00 00 05, written once and read back from standard
input into a buffer of four bytes; and the empty sequence, for which standard
input is at its end. -/
theorem b58_round_trip_witness :
    b58Reader.Read ⟨stdin (ascii "116")⟩ [9, 9, 9, 9] = some ⟨3, none, [0, 0, 5, 9]⟩ ∧
      b58Reader.Read ⟨stdin []⟩ [9] = some ⟨0, some Error.EOF, [9]⟩ :=
  ⟨(b58_round_trip [0, 0, 5] [9, 9, 9, 9] ⟨⟨[], fun _ p => (p.length, none)⟩⟩
      ⟨stdin (ascii "116")⟩ (by decide) (by decide) rfl (by decide)).1,
    (b58_round_trip [] [9] ⟨⟨[], fun _ p => (p.length, none)⟩⟩
      ⟨stdin []⟩ (by decide) (by decide) rfl (by decide)).1⟩

/-- Counterexample to C6 as stated: the byte 01 written twice and followed by
`Close` emits "22", the encodings of the two chunks one after the other, while
the Base58 encoding of the concatenation 01 01 is "5S". -/
theorem b58Writer_encodes_each_chunk :
    ((b58Writer.WriteAll ⟨⟨[], fun _ p => (p.length, none)⟩⟩ [[1], [1]]).1.Close).1.w.emitted =
        ascii "22" ∧
      base58.Encode ([[1], [1]] : List (List Nat)).flatten = ascii "5S" := by
  decide

/-- C6, amended. Base58 encoding per chunk: for every sequence of byte chunks
written to a `b58Writer` and followed by `Close`, the text emitted to the
destination is the concatenation, in order, of the Base58 encodings of the
individual chunks (each `Write` encodes its own chunk and `Close` emits
nothing); it is the encoding of all the bytes when they arrive in one `Write`. -/
theorem b58Writer_emits_chunk_encodings (w : b58Writer) (chunks : List (List Nat))
    (B : List Nat) :
    ((w.WriteAll chunks).1.Close).1.w.emitted =
        w.w.emitted ++ (chunks.map base58.Encode).flatten ∧
      ((w.WriteAll [B]).1.Close).1.w.emitted = w.w.emitted ++ base58.Encode B := by
  constructor
  · simp [b58Writer.Close, Writer.emitted, b58Writer_WriteAll_calls]
  · simp [b58Writer.Close, Writer.emitted, b58Writer_WriteAll_calls]

/-- Counterexample to C7 as stated: for the empty input, standard input is at
its end and answers `io.EOF`; `b58Reader.Read` passes that on, so its error is
not "invalid base58 input", and `io.Copy` ends the transfer without error and
with no byte written. -/
theorem b58Reader_empty_input_is_EOF :
    b58Reader.Read ⟨stdin []⟩ [0, 0] = some ⟨0, some Error.EOF, [0, 0]⟩ ∧
      b58Reader.Read ⟨stdin []⟩ [0, 0] ≠
        some ⟨0, some (Error.Errorf "invalid base58 input"), [0, 0]⟩ ∧
      copyErr (some Error.EOF) = none := by
  decide

/-- C7, amended. Base58 rejection of a decoding of zero bytes: a non-empty
chunk decodes to zero bytes exactly when it has a character outside the Bitcoin
alphabet, and when the source delivers such a chunk with a nil error
`b58Reader.Read` fails with the error "invalid base58 input"; an error of the
source, such as `io.EOF` at the end of the input, is passed on with `n = 0`; and
whatever the source answers, `Read` never returns zero bytes with a nil
error. -/
theorem b58Reader_rejects_empty_decode (r : b58Reader) (b chunk : List Nat)
    (hne : chunk ≠ [])
    (hsrc : r.src (b.length * 2) = ⟨chunk, none⟩) (hfit : chunk.length ≤ b.length * 2) :
    ((base58.Decode chunk).length = 0 ↔ ∃ c ∈ chunk, c ∉ base58.BTCAlphabet) ∧
      ((base58.Decode chunk).length = 0 →
        r.Read b = some ⟨0, some (Error.Errorf "invalid base58 input"), b⟩) ∧
      (∀ (r2 : b58Reader) (b2 : List Nat) (e : Error),
        (r2.src (b2.length * 2)).err = some e → r2.Read b2 = some ⟨0, some e, b2⟩) ∧
      ∀ (r2 : b58Reader) (b2 : List Nat) (res : ReadResult),
        r2.Read b2 = some res → res.err = none → res.n ≠ 0 := by
  refine ⟨Decode_length_zero_iff chunk hne, ?_, ?_, ?_⟩
  · intro hz
    rw [b58Reader_Read_chunk r b chunk hsrc hfit, if_pos hz]
  · intro r2 b2 e he
    simp only [b58Reader.Read, he]
  · intro r2 b2 res hres herr
    unfold b58Reader.Read at hres
    cases he : (r2.src (b2.length * 2)).err with
    | some e =>
      simp only [he, Option.some.injEq] at hres
      rw [← hres] at herr
      cases herr
    | none =>
      simp only [he] at hres
      by_cases hcap : (r2.src (b2.length * 2)).data.length > b2.length * 2
      · simp [hcap] at hres
      · simp only [hcap, if_false] at hres
        by_cases hz : (base58.Decode (r2.src (b2.length * 2)).data).length = 0
        · simp only [hz, if_true, Option.some.injEq] at hres
          rw [← hres] at herr
          cases herr
        · simp only [hz, if_false, Option.some.injEq] at hres
          rw [← hres]
          simp only [copy]
          intro hmin
          have hb2 : b2.length = 0 := by
            rcases Nat.min_eq_zero_iff.mp hmin with h0 | h0
            · exact h0
            · exact absurd h0 hz
          have hd : (r2.src (b2.length * 2)).data = [] := by
            apply List.length_eq_zero.mp
            omega
          rw [hd] at hz
          exact hz (by decide)

/-- Witness of C7 amended: the chunk "2!0", which has characters outside the
Bitcoin alphabet, is rejected. -/
theorem b58Reader_rejects_empty_decode_witness :
    b58Reader.Read ⟨pending (ascii "2!0")⟩ [7, 7] =
      some ⟨0, some (Error.Errorf "invalid base58 input"), [7, 7]⟩ :=
  (b58Reader_rejects_empty_decode ⟨pending (ascii "2!0")⟩ [7, 7] (ascii "2!0") (by decide)
    (by decide) (by decide)).2.1 (by decide)

/-- C10, at the failing input: with a destination buffer of one byte and the
two-character chunk "zz", whose Base58 decoding is the two bytes 0D 23, `Read`
answers `n = 1` with a nil error and the buffer holds only 0D; the byte 23 is
dropped. -/
theorem b58Reader_drops_decoded_bytes :
    base58.Decode (ascii "zz") = [0x0D, 0x23] ∧
      b58Reader.Read ⟨pending (ascii "zz")⟩ [0] = some ⟨1, none, [0x0D]⟩ := by
  decide

/-! ## The claims about main -/

/-- C9, at the failing input: on a destination whose `Write` answers an error,
`hexWriter.Write` of the one-byte chunk 00 answers `(1, nil)`, while
`b58Writer.Write` of the same chunk on the same destination answers the
error. -/
theorem hexWriter_drops_write_error :
    (hexWriter.Write ⟨⟨[], fun _ _ => (0, some (Error.other 1))⟩⟩ [0]).2 = (1, none) ∧
      (b58Writer.Write ⟨⟨[], fun _ _ => (0, some (Error.other 1))⟩⟩ [0]).2 =
        (0, some (Error.other 1)) := by
  decide

/-- C8. Format resolution: the switch on the source token selects a strategy
exactly for hex, b16, b64, base64, b32, base32, b58, base58, raw, bin and mbase,
the switch on the target token exactly for the same tokens without mbase, so
both select one exactly when both tokens are recognised; the two aliases of a
format select the same strategy; with any other token the run ends with exit
status 1 and nothing written to standard output; and with recognised tokens
(and no failure of the mbase decoding) the run is the transfer between the two
selected strategies. -/
theorem format_resolution (src dst prog : String) (env : Env) :
    ((∃ r w, sourceCase src = some r ∧ targetCase dst = some w) ↔
        (src ∈ ["hex", "b16", "b64", "base64", "b32", "base32", "b58", "base58", "raw", "bin",
            "mbase"] ∧
          dst ∈ ["hex", "b16", "b64", "base64", "b32", "base32", "b58", "base58", "raw",
            "bin"])) ∧
      (sourceCase "hex" = sourceCase "b16" ∧ sourceCase "b64" = sourceCase "base64" ∧
        sourceCase "b32" = sourceCase "base32" ∧ sourceCase "b58" = sourceCase "base58" ∧
        sourceCase "raw" = sourceCase "bin" ∧ targetCase "hex" = targetCase "b16" ∧
        targetCase "b64" = targetCase "base64" ∧ targetCase "b32" = targetCase "base32" ∧
        targetCase "b58" = targetCase "base58" ∧ targetCase "raw" = targetCase "bin") ∧
      (¬ (∃ r w, sourceCase src = some r ∧ targetCase dst = some w) →
        (main [prog, src, dst] env).status = 1 ∧ (main [prog, src, dst] env).stdout = []) ∧
      (∀ r w, sourceCase src = some r → targetCase dst = some w →
        (r = Source.mbase → env.mbaseFailure = none) →
        main [prog, src, dst] env = env.transfer r w) := by
  have hs : sourceCase src ≠ none ↔ src ∈ ["hex", "b16", "b64", "base64", "b32", "base32",
      "b58", "base58", "raw", "bin", "mbase"] := by
    unfold sourceCase
    split <;> simp_all
  have ht : targetCase dst ≠ none ↔ dst ∈ ["hex", "b16", "b64", "base64", "b32", "base32",
      "b58", "base58", "raw", "bin"] := by
    unfold targetCase
    split <;> simp_all
  refine ⟨?_, by decide, ?_, ?_⟩
  · rw [← hs, ← ht]
    constructor
    · rintro ⟨r, w, h1, h2⟩
      simp [h1, h2]
    · rintro ⟨h1, h2⟩
      obtain ⟨r, hr⟩ := Option.ne_none_iff_exists'.mp h1
      obtain ⟨w, hw⟩ := Option.ne_none_iff_exists'.mp h2
      exact ⟨r, w, hr, hw⟩
  · intro hno
    cases hr : sourceCase src with
    | none => simp [main, hr]
    | some r =>
      cases hm : (if r = Source.mbase then env.mbaseFailure else none) with
      | some msg => simp [main, hr, hm]
      | none =>
        cases hw : targetCase dst with
        | none => simp [main, hr, hm, hw]
        | some w => exact absurd ⟨r, w, hr, hw⟩ hno
  · intro r w hr hw hmb
    have hm : (if r = Source.mbase then env.mbaseFailure else none) = none := by
      by_cases h : r = Source.mbase
      · simp [h, hmb h]
      · simp [h]
    simp [main, hr, hm, hw]

/-- Witness of C8: with the target token "mbase", or the source token "zzz",
no strategy is selected and the run ends with status 1 and an empty standard
output. -/
theorem format_resolution_witness :
    ((main ["bases", "hex", "mbase"] ⟨none, fun _ _ => ⟨0, [1], []⟩⟩).status = 1 ∧
        (main ["bases", "hex", "mbase"] ⟨none, fun _ _ => ⟨0, [1], []⟩⟩).stdout = []) ∧
      ((main ["bases", "zzz", "hex"] ⟨none, fun _ _ => ⟨0, [1], []⟩⟩).status = 1 ∧
        (main ["bases", "zzz", "hex"] ⟨none, fun _ _ => ⟨0, [1], []⟩⟩).stdout = []) :=
  ⟨(format_resolution "hex" "mbase" "bases" ⟨none, fun _ _ => ⟨0, [1], []⟩⟩).2.2.1
      (by
        rintro ⟨r, w, _, h⟩
        have e : targetCase "mbase" = none := by decide
        rw [e] at h
        cases h),
    (format_resolution "zzz" "hex" "bases" ⟨none, fun _ _ => ⟨0, [1], []⟩⟩).2.2.1
      (by
        rintro ⟨r, w, h, _⟩
        have e : sourceCase "zzz" = none := by decide
        rw [e] at h
        cases h)⟩

end Bases
